import Mathlib

/-!
# Verification of `redact-docx` (`src/redact.py`)

A shallow embedding of the redaction program of `src/redact.py`.
Python strings are modelled as `List Char`, python-docx's `RGBColor` and
`WD_COLOR_INDEX` as small concrete types, and a document run as a structure
carrying its text together with its colouring state and an opaque bag of
remaining formatting properties.  Exceptions are modelled with `Except`.
-/

namespace Redact

/-- `docx.shared.RGBColor`: an RGB triple. -/
structure RGBColor where
  r : Nat
  g : Nat
  b : Nat
deriving DecidableEq, Repr

/-- The members of `docx.enum.text.WD_COLOR_INDEX` used by the program. -/
inductive WDColorIndex where
  | white
  | yellow
  | black
deriving DecidableEq, Repr

/-- A document run (python-docx `Run`): a span of text together with its
formatting.  `color` models `run.font.color.rgb`, `highlightColor` models
`run.font.highlight_color`, and `fmt` stands for the opaque bag of all other
formatting properties, which cloning copies unchanged. -/
structure Run where
  text : List Char
  color : Option RGBColor
  highlightColor : Option WDColorIndex
  fmt : Nat
deriving DecidableEq, Repr

/-- The loop of `process_matches` (`src/redact.py` lines 40-53): walk the
remaining match pairs carrying `prev`, the end of the previous match; a gap
(`prev != match_pairs[idx][0]`) emits a non-highlighted boundary at the
current start before the highlighted boundary at the current end. -/
def processLoop : List (Nat × Nat) → Nat → List Bool → List Nat → List Bool × List Nat
  | [], _, highlights, offsets => (highlights, offsets)
  | (s, e) :: rest, prev, highlights, offsets =>
      if prev ≠ s then
        processLoop rest e (highlights ++ [false, true]) (offsets ++ [s, e])
      else
        processLoop rest e (highlights ++ [true]) (offsets ++ [e])

/-- `process_matches` (`src/redact.py` lines 13-59): convert the match pairs
of a run's text into split offsets (`matches`) and per-segment highlight
flags (`highlights`).  The run text is used only through `len(run_text)`. -/
def process_matches (match_pairs : List (Nat × Nat)) (run_text : List Char) :
    List Bool × List Nat :=
  match match_pairs with
  | [] => ([], [])
  | (s0, e0) :: rest =>
      let start : List Bool × List Nat :=
        if s0 ≠ 0 then ([false, true], [0, s0, e0]) else ([true], [s0, e0])
      let r := processLoop rest e0 start.1 start.2
      if r.2.getLast? ≠ some run_text.length then
        (r.1 ++ [false], r.2 ++ [run_text.length])
      else r

/-- `redact_colors` (`src/redact.py` lines 62-74): the colour lookup.
`color = none` models the Python default argument `None`; any key other
than `'white'` and `'yellow'` falls back to black text on black highlight
(`switcher.get(color, (RGBColor(0, 0, 0), WD_COLOR_INDEX.BLACK))`). -/
def redact_colors (color : Option String) : RGBColor × WDColorIndex :=
  match color with
  | some "white" => (⟨255, 255, 255⟩, WDColorIndex.white)
  | some "yellow" => (⟨255, 255, 0⟩, WDColorIndex.yellow)
  | _ => (⟨0, 0, 0⟩, WDColorIndex.black)

/-- The texts of the segments of `t` cut at the given ascending offsets,
starting at position `a`: `segTexts t a [b₁, …, bₖ]` is
`[t[a:b₁], t[b₁:b₂], …, t[bₖ:]]` in Python slice notation. -/
def segTexts (t : List Char) : Nat → List Nat → List (List Char)
  | a, [] => [t.drop a]
  | a, b :: bs => (t.drop a).take (b - a) :: segTexts t b bs

/-- Modelled from the spec: `split_run_by` is imported from `run_tools`,
a module of this repository that is not among the sources.  Per spec §4.2 it
produces `len(interiorOffsets) + 1` runs: the first reuses the original run
with its text truncated to `text[0:offsets[0]]`, each subsequent run is a
new run cloning every formatting property of the original, with text the
corresponding slice, inserted immediately after; the returned list occupies
the original run's position in the paragraph. -/
def split_run_by (run : Run) (interior : List Nat) : List Run :=
  (segTexts run.text 0 interior).map (fun s => { run with text := s })

/-- Applying redaction to one segment run, as done identically at
`src/redact.py` lines 112-117 (whole-run case) and 122-130 (split case):
a highlighted segment gets its text replaced when `replace_with is not None`
and both colours set; a non-highlighted segment is left alone. -/
def apply_highlight (replace_with : Option (List Char)) (txt_color : RGBColor)
    (background_color : WDColorIndex) (highlight : Bool) (run : Run) : Run :=
  if highlight then
    { run with
        text := match replace_with with
          | some r => r
          | none => run.text,
        highlightColor := some background_color,
        color := some txt_color }
  else run

/-- The per-run body of `redact_document` (`src/redact.py` lines 106-130),
operating on the `(highlights, matches)` pair already computed by
`process_matches`.  The codomain `Except` makes the exception channel
explicit.  At lines 107-108, when `len(highlights) != len(matches) - 1`, the
source evaluates `ValueError('Calculation error within matches and
highlights')` as a bare expression: the exception object is constructed and
discarded, no `raise` statement executes, so control falls through, the run
is left unchanged and processing continues — hence that branch yields
`Except.ok [run]`, not `Except.error`.  The returned list is the sequence of
runs standing at the original run's position afterwards. -/
def redact_run_body (replace_with : Option (List Char)) (txt_color : RGBColor)
    (background_color : WDColorIndex) (run : Run)
    (highlights : List Bool) (offsets : List Nat) : Except String (List Run) :=
  if 0 < highlights.length ∧ 0 < offsets.length then
    if highlights.length ≠ offsets.length - 1 then
      Except.ok [run]
    else if offsets.length = 2 then
      Except.ok [apply_highlight replace_with txt_color background_color true run]
    else
      let new_runs := split_run_by run ((offsets.drop 1).dropLast)
      Except.ok ((highlights.zip new_runs).map
        (fun p => apply_highlight replace_with txt_color background_color p.1 p.2))
  else
    Except.ok [run]

/-- One iteration of the run loop of `redact_document`
(`src/redact.py` lines 100-130): compute the match boundaries of the run's
text and apply the per-run body. -/
def redact_run (replace_with : Option (List Char)) (txt_color : RGBColor)
    (background_color : WDColorIndex) (run : Run)
    (match_pairs : List (Nat × Nat)) : Except String (List Run) :=
  let hm := process_matches match_pairs run.text
  redact_run_body replace_with txt_color background_color run hm.1 hm.2

/-- The paragraph loop of `redact_document` (`src/redact.py` lines 96-132):
each run of the paragraph is processed exactly once (the source iterates in
reverse index order precisely so that the runs freshly inserted by
`split_run_by` are not revisited) and is replaced in place by the run list
the per-run body produces; `matcher` stands for
`re.finditer('|'.join(pattern), run.text)`. -/
def redact_paragraph (replace_with : Option (List Char)) (txt_color : RGBColor)
    (background_color : WDColorIndex)
    (matcher : List Char → List (Nat × Nat)) : List Run → Except String (List Run)
  | [] => Except.ok []
  | r :: rest => do
      let out ← redact_run replace_with txt_color background_color r (matcher r.text)
      let outRest ← redact_paragraph replace_with txt_color background_color matcher rest
      return out ++ outRest

/-- Valid match spans as in spec §4.1's input constraint together with
non-degeneracy: starting from lower bound `p`, each span `[s, e)` has
`p ≤ s` (ordered, non-overlapping with the previous span), `s < e`
(non-empty) and `e ≤ L` (within the text). -/
def SpansOK (L : Nat) : Nat → List (Nat × Nat) → Prop
  | _, [] => True
  | p, (s, e) :: rest => p ≤ s ∧ s < e ∧ e ≤ L ∧ SpansOK L e rest

instance SpansOK.dec (L : Nat) : (p : Nat) → (l : List (Nat × Nat)) → Decidable (SpansOK L p l)
  | _, [] => Decidable.isTrue trivial
  | p, (s, e) :: rest =>
      haveI := SpansOK.dec L e rest
      inferInstanceAs (Decidable (p ≤ s ∧ s < e ∧ e ≤ L ∧ SpansOK L e rest))

/-- The match-span constraint exactly as claim C2 states it, without
non-degeneracy: ordered by start ascending, non-overlapping, each span
within `[0, L]` — empty spans `[s, s)` are not excluded. -/
def SpansWeak (L : Nat) : Nat → List (Nat × Nat) → Prop
  | _, [] => True
  | p, (s, e) :: rest => p ≤ s ∧ s ≤ e ∧ e ≤ L ∧ SpansWeak L e rest

instance SpansWeak.dec (L : Nat) : (p : Nat) → (l : List (Nat × Nat)) → Decidable (SpansWeak L p l)
  | _, [] => Decidable.isTrue trivial
  | p, (s, e) :: rest =>
      haveI := SpansWeak.dec L e rest
      inferInstanceAs (Decidable (p ≤ s ∧ s ≤ e ∧ e ≤ L ∧ SpansWeak L e rest))

/-- The end position of the last span, starting from `prev`. -/
def lastEnd : Nat → List (Nat × Nat) → Nat
  | prev, [] => prev
  | _, (_, e) :: rest => lastEnd e rest

/-- Modelled from the spec: the matcher (`re.finditer` over the pattern
alternation) is an external collaborator; per §3 it produces spans
left-to-right, first match wins.  For a single literal pattern fragment the
first span is the first occurrence of the literal:
`litMatchSpan pat t s` scans `t`, whose first position is the absolute
offset `s`, and returns `[start, start + len(pat))` of the first
occurrence of `pat`. -/
def litMatchSpan (pat : List Char) : List Char → Nat → Option (Nat × Nat)
  | [], s => if ([] : List Char).take pat.length = pat then some (s, s + pat.length) else none
  | c :: t2, s =>
      if (c :: t2).take pat.length = pat then some (s, s + pat.length)
      else litMatchSpan pat t2 (s + 1)

/-! ## Invariants of the resolver loop -/

/-- The loop keeps `len(highlights)` and `len(matches)` in lockstep: both
branches of the body extend the two accumulators by the same amount. -/
theorem processLoop_len (rest : List (Nat × Nat)) :
    ∀ (prev : Nat) (h : List Bool) (m : List Nat),
      (processLoop rest prev h m).1.length + m.length =
        (processLoop rest prev h m).2.length + h.length := by
  induction rest with
  | nil => intro prev h m; simp [processLoop]; omega
  | cons pr rest ih =>
      obtain ⟨s, e⟩ := pr
      intro prev h m
      by_cases hne : prev = s
      · subst hne
        have hstep : processLoop ((prev, e) :: rest) prev h m =
            processLoop rest e (h ++ [true]) (m ++ [e]) := by
          simp [processLoop]
        rw [hstep]
        have hrec := ih e (h ++ [true]) (m ++ [e])
        simp only [List.length_append, List.length_singleton] at hrec
        omega
      · have hstep : processLoop ((s, e) :: rest) prev h m =
            processLoop rest e (h ++ [false, true]) (m ++ [s, e]) := by
          simp [processLoop, hne]
        rw [hstep]
        have hrec := ih e (h ++ [false, true]) (m ++ [s, e])
        simp only [List.length_append, List.length_cons, List.length_singleton,
          List.length_nil] at hrec
        omega

/-- Full invariant of the resolver loop under valid spans: the offsets stay
strictly increasing, bounded by the last span end, end in the last span end,
stay balanced with the highlight flags, gain exactly one `true` flag per
span, and only grow by appending. -/
theorem processLoop_spec (L : Nat) (rest : List (Nat × Nat)) :
    ∀ (prev : Nat) (h : List Bool) (m : List Nat),
      SpansOK L prev rest → prev ≤ L →
      m.Pairwise (· < ·) → (∀ x ∈ m, x ≤ prev) → m.getLast? = some prev →
      h.length + 1 = m.length →
      (processLoop rest prev h m).2.Pairwise (· < ·) ∧
      (∀ x ∈ (processLoop rest prev h m).2, x ≤ lastEnd prev rest) ∧
      (processLoop rest prev h m).2.getLast? = some (lastEnd prev rest) ∧
      lastEnd prev rest ≤ L ∧
      (processLoop rest prev h m).1.length + 1 = (processLoop rest prev h m).2.length ∧
      (processLoop rest prev h m).1.count true = h.count true + rest.length ∧
      ∃ tl, (processLoop rest prev h m).2 = m ++ tl := by
  induction rest with
  | nil =>
      intro prev h m _ hpL hpw hub hlast hlen
      exact ⟨hpw, by simpa [processLoop, lastEnd] using hub,
        by simpa [processLoop, lastEnd] using hlast, by simpa [lastEnd] using hpL,
        by simpa [processLoop] using hlen, by simp [processLoop],
        ⟨[], by simp [processLoop]⟩⟩
  | cons pr rest ih =>
      obtain ⟨s, e⟩ := pr
      intro prev h m hok hpL hpw hub hlast hlen
      obtain ⟨hps, hse, heL, hok'⟩ := hok
      by_cases hne : prev = s
      · subst hne
        have hstep : processLoop ((prev, e) :: rest) prev h m =
            processLoop rest e (h ++ [true]) (m ++ [e]) := by
          simp [processLoop]
        have hpw' : (m ++ [e]).Pairwise (· < ·) := by
          rw [List.pairwise_append]
          exact ⟨hpw, List.pairwise_singleton _ _,
            fun a ha b hb => by
              simp only [List.mem_singleton] at hb; subst hb
              exact lt_of_le_of_lt (hub a ha) hse⟩
        have hub' : ∀ x ∈ m ++ [e], x ≤ e := by
          intro x hx
          rcases List.mem_append.mp hx with hx | hx
          · exact le_of_lt (lt_of_le_of_lt (hub x hx) hse)
          · simp only [List.mem_singleton] at hx; subst hx; exact le_rfl
        have hlast' : (m ++ [e]).getLast? = some e := List.getLast?_concat _
        have hlen' : (h ++ [true]).length + 1 = (m ++ [e]).length := by
          simp only [List.length_append, List.length_singleton]; omega
        have := ih e (h ++ [true]) (m ++ [e]) hok' heL hpw' hub' hlast' hlen'
        obtain ⟨c1, c2, c3, c4, c5, c6, tl, c7⟩ := this
        rw [hstep]
        refine ⟨c1, by simpa [lastEnd] using c2, by simpa [lastEnd] using c3,
          by simpa [lastEnd] using c4, c5, ?_, ⟨[e] ++ tl, by simpa using c7⟩⟩
        rw [c6]
        simp [List.count_append]
        omega
      · have hps2 : prev < s := lt_of_le_of_ne hps hne
        have hstep : processLoop ((s, e) :: rest) prev h m =
            processLoop rest e (h ++ [false, true]) (m ++ [s, e]) := by
          simp [processLoop, hne]
        have hpw' : (m ++ [s, e]).Pairwise (· < ·) := by
          rw [List.pairwise_append]
          refine ⟨hpw, ?_, fun a ha b hb => ?_⟩
          · exact List.pairwise_pair.mpr hse
          · have haprev : a ≤ prev := hub a ha
            rcases List.mem_pair.mp hb with hb | hb <;> subst hb
            · exact lt_of_le_of_lt haprev hps2
            · exact lt_of_le_of_lt haprev (lt_trans hps2 hse)
        have hub' : ∀ x ∈ m ++ [s, e], x ≤ e := by
          intro x hx
          rcases List.mem_append.mp hx with hx | hx
          · exact le_of_lt (lt_of_le_of_lt (hub x hx) (lt_trans hps2 hse))
          · rcases List.mem_pair.mp hx with hx | hx <;> subst hx
            · exact le_of_lt hse
            · exact le_rfl
        have hlast' : (m ++ [s, e]).getLast? = some e := by
          have : m ++ [s, e] = (m ++ [s]) ++ [e] := by simp
          rw [this]; exact List.getLast?_concat _
        have hlen' : (h ++ [false, true]).length + 1 = (m ++ [s, e]).length := by
          simp only [List.length_append]; simp; omega
        have := ih e (h ++ [false, true]) (m ++ [s, e]) hok' heL hpw' hub' hlast' hlen'
        obtain ⟨c1, c2, c3, c4, c5, c6, tl, c7⟩ := this
        rw [hstep]
        refine ⟨c1, by simpa [lastEnd] using c2, by simpa [lastEnd] using c3,
          by simpa [lastEnd] using c4, c5, ?_, ⟨[s, e] ++ tl, by simpa using c7⟩⟩
        rw [c6]
        simp [List.count_append]
        omega

/-- Unfolding equation of `process_matches` on a non-empty pair list. -/
theorem process_matches_cons (s0 e0 : Nat) (rest : List (Nat × Nat)) (t : List Char) :
    process_matches ((s0, e0) :: rest) t =
      (let start : List Bool × List Nat :=
        if s0 ≠ 0 then ([false, true], [0, s0, e0]) else ([true], [s0, e0])
      let r := processLoop rest e0 start.1 start.2
      if r.2.getLast? ≠ some t.length then
        (r.1 ++ [false], r.2 ++ [t.length])
      else r) := rfl

/-- The loop only ever appends to its accumulators, at least one highlight
flag per remaining span. -/
theorem processLoop_grow (rest : List (Nat × Nat)) :
    ∀ (prev : Nat) (h : List Bool) (m : List Nat),
      ∃ hl tl, processLoop rest prev h m = (h ++ hl, m ++ tl) ∧
        rest.length ≤ hl.length := by
  induction rest with
  | nil => intro prev h m; exact ⟨[], [], by simp [processLoop], by simp⟩
  | cons pr rest ih =>
      obtain ⟨s, e⟩ := pr
      intro prev h m
      by_cases hne : prev = s
      · subst hne
        obtain ⟨hl, tl, heq, hlen⟩ := ih e (h ++ [true]) (m ++ [e])
        refine ⟨[true] ++ hl, [e] ++ tl, ?_, ?_⟩
        · simpa [processLoop] using heq
        · simp only [List.length_append, List.length_cons, List.length_nil,
            List.length_singleton]
          omega
      · obtain ⟨hl, tl, heq, hlen⟩ := ih e (h ++ [false, true]) (m ++ [s, e])
        refine ⟨[false, true] ++ hl, [s, e] ++ tl, ?_, ?_⟩
        · have hstep : processLoop ((s, e) :: rest) prev h m =
              processLoop rest e (h ++ [false, true]) (m ++ [s, e]) := by
            simp [processLoop, hne]
          rw [hstep, heq]; simp
        · simp only [List.length_append, List.length_cons, List.length_nil]
          omega

/-- The Segment Plan facts for `process_matches` under valid non-degenerate
spans: offsets strictly increasing, starting at `0`, ending at the text
length, balanced with the highlight flags, and one `true` flag per span. -/
theorem process_matches_spec (mp : List (Nat × Nat)) (t : List Char)
    (hne : mp ≠ []) (hok : SpansOK t.length 0 mp) :
    (process_matches mp t).2.Pairwise (· < ·) ∧
    (process_matches mp t).2.head? = some 0 ∧
    (process_matches mp t).2.getLast? = some t.length ∧
    (process_matches mp t).1.length + 1 = (process_matches mp t).2.length ∧
    (process_matches mp t).1.count true = mp.length := by
  match mp, hne with
  | (s0, e0) :: rest, _ =>
  obtain ⟨-, hse, heL, hok'⟩ := hok
  rw [process_matches_cons]
  by_cases h0 : s0 = 0
  · subst h0
    simp only [ne_eq, not_true_eq_false, if_false, reduceIte]
    have hspec := processLoop_spec t.length rest e0 [true] [0, e0] hok' heL
      (by simp [List.pairwise_cons]; omega)
      (by intro x hx; simp at hx; rcases hx with hx | hx <;> omega)
      (by simp) (by simp)
    obtain ⟨c1, c2, c3, c4, c5, c6, tl, c7⟩ := hspec
    by_cases hLe : lastEnd e0 rest = t.length
    · have hcond : (processLoop rest e0 [true] [0, e0]).2.getLast? =
          some t.length := by rw [c3, hLe]
      rw [if_neg (by simp [hcond])]
      refine ⟨c1, ?_, by rw [c3, hLe], c5, by rw [c6]; simp; omega⟩
      rw [c7]; simp
    · have hcond : (processLoop rest e0 [true] [0, e0]).2.getLast? ≠
          some t.length := by rw [c3]; simpa using hLe
      rw [if_pos (by simpa using hcond)]
      have hlt : lastEnd e0 rest < t.length := lt_of_le_of_ne c4 hLe
      refine ⟨?_, ?_, ?_, ?_, ?_⟩
      · rw [List.pairwise_append]
        exact ⟨c1, List.pairwise_singleton _ _,
          fun a ha b hb => by
            simp only [List.mem_singleton] at hb; subst hb
            exact lt_of_le_of_lt (c2 a ha) hlt⟩
      · rw [c7]; simp
      · simp [List.getLast?_concat]
      · simp only [List.length_append, List.length_singleton]; omega
      · simp [List.count_append, c6]; omega
  · simp only [ne_eq, h0, not_false_eq_true, if_true, reduceIte]
    have hs0 : 0 < s0 := Nat.pos_of_ne_zero h0
    have hspec := processLoop_spec t.length rest e0 [false, true] [0, s0, e0] hok' heL
      (by simp [List.pairwise_cons]; omega)
      (by intro x hx; simp at hx; rcases hx with hx | hx | hx <;> omega)
      (by simp) (by simp)
    obtain ⟨c1, c2, c3, c4, c5, c6, tl, c7⟩ := hspec
    by_cases hLe : lastEnd e0 rest = t.length
    · have hcond : (processLoop rest e0 [false, true] [0, s0, e0]).2.getLast? =
          some t.length := by rw [c3, hLe]
      rw [if_neg (by simp [hcond])]
      refine ⟨c1, ?_, by rw [c3, hLe], c5, by rw [c6]; simp; omega⟩
      rw [c7]; simp
    · have hcond : (processLoop rest e0 [false, true] [0, s0, e0]).2.getLast? ≠
          some t.length := by rw [c3]; simpa using hLe
      rw [if_pos (by simpa using hcond)]
      have hlt : lastEnd e0 rest < t.length := lt_of_le_of_ne c4 hLe
      refine ⟨?_, ?_, ?_, ?_, ?_⟩
      · rw [List.pairwise_append]
        exact ⟨c1, List.pairwise_singleton _ _,
          fun a ha b hb => by
            simp only [List.mem_singleton] at hb; subst hb
            exact lt_of_le_of_lt (c2 a ha) hlt⟩
      · rw [c7]; simp
      · simp [List.getLast?_concat]
      · simp only [List.length_append, List.length_singleton]; omega
      · simp [List.count_append, c6]; omega

/-- If the resolver returns the two-element offsets list `[0, len(t)]`, then
its highlights list is exactly `[true]`: a single match covered the whole
run. -/
theorem process_matches_two (mp : List (Nat × Nat)) (t : List Char)
    (hfull : (process_matches mp t).2 = [0, t.length]) :
    process_matches mp t = ([true], [0, t.length]) := by
  match mp with
  | [] => simp [process_matches] at hfull
  | (s0, e0) :: rest =>
    rw [process_matches_cons] at hfull ⊢
    by_cases h0 : s0 = 0
    · subst h0
      simp only [ne_eq, not_true_eq_false, if_false, reduceIte] at hfull ⊢
      obtain ⟨hl, tl, heq, -⟩ := processLoop_grow rest e0 [true] [0, e0]
      have hbal := processLoop_len rest e0 [true] [0, e0]
      by_cases hc : (processLoop rest e0 [true] [0, e0]).2.getLast? ≠ some t.length
      · rw [if_pos hc] at hfull
        have hlen2 := congrArg List.length hfull
        rw [heq] at hlen2
        simp only [List.length_append, List.length_cons, List.length_nil] at hlen2
        omega
      · rw [if_neg hc] at hfull ⊢
        rw [heq] at hfull hbal ⊢
        have hlen2 := congrArg List.length hfull
        simp only [List.length_append, List.length_cons, List.length_nil] at hlen2 hbal
        have htl : tl = [] := List.length_eq_zero.mp (by omega)
        have hhl : hl = [] := List.length_eq_zero.mp (by omega)
        subst htl
        subst hhl
        simp only [List.append_nil] at hfull ⊢
        have he0 : e0 = t.length := by
          have := List.cons.injEq .. ▸ hfull
          simpa using hfull
        rw [he0]
    · simp only [ne_eq, h0, not_false_eq_true, if_true, reduceIte] at hfull
      obtain ⟨hl, tl, heq, -⟩ := processLoop_grow rest e0 [false, true] [0, s0, e0]
      by_cases hc : (processLoop rest e0 [false, true] [0, s0, e0]).2.getLast? ≠
          some t.length
      · rw [if_pos hc] at hfull
        have hlen2 := congrArg List.length hfull
        rw [heq] at hlen2
        simp only [List.length_append, List.length_cons, List.length_nil] at hlen2
        omega
      · rw [if_neg hc] at hfull
        have hlen2 := congrArg List.length hfull
        rw [heq] at hlen2
        simp only [List.length_append, List.length_cons, List.length_nil] at hlen2
        omega

/-- A list of naturals whose `head?` is `some 0` is `0 ::` its tail. -/
theorem head?_zero (m : List Nat) (hh : m.head? = some 0) : m = 0 :: m.tail := by
  cases m with
  | nil => simp at hh
  | cons a l => simp only [List.head?_cons, Option.some.injEq] at hh; subst hh; rfl

/-- `segTexts` produces one segment more than it has cut points. -/
theorem segTexts_length (t : List Char) :
    ∀ (bs : List Nat) (a : Nat), (segTexts t a bs).length = bs.length + 1 := by
  intro bs
  induction bs with
  | nil => intro a; simp [segTexts]
  | cons b bs ih => intro a; simp [segTexts, ih]

/-- Joining the segments cut at weakly ascending offsets reproduces the
dropped text: the segment texts tile the original. -/
theorem segTexts_join (t : List Char) :
    ∀ (bs : List Nat) (a : Nat), (a :: bs).Pairwise (· ≤ ·) →
      (segTexts t a bs).flatten = t.drop a := by
  intro bs
  induction bs with
  | nil => intro a _; simp [segTexts]
  | cons b bs ih =>
      intro a hpw
      obtain ⟨hab, hrest⟩ := List.pairwise_cons.mp hpw
      have hab2 : a ≤ b := hab b (by simp)
      simp only [segTexts, List.flatten_cons]
      rw [ih b hrest]
      have hdd : t.drop b = (t.drop a).drop (b - a) := by
        rw [List.drop_drop]
        congr 1
        omega
      rw [hdd, List.take_append_drop]

/-- Under valid non-degenerate spans the offsets list has at least the two
entries `0` and the text length. -/
theorem process_matches_min_len (mp : List (Nat × Nat)) (t : List Char)
    (hne : mp ≠ []) (hok : SpansOK t.length 0 mp) :
    2 ≤ (process_matches mp t).2.length := by
  obtain ⟨-, hhead, hlast, -, -⟩ := process_matches_spec mp t hne hok
  have hn : 0 < t.length := by
    match mp, hne, hok with
    | (s0, e0) :: rest, _, hok2 =>
      obtain ⟨-, hse, heL, -⟩ := hok2
      omega
  rcases hm : (process_matches mp t).2 with - | ⟨a, l⟩
  · rw [hm] at hhead; simp at hhead
  · rcases l with - | ⟨b, l2⟩
    · rw [hm] at hhead hlast
      simp at hhead hlast
      omega
    · simp

/-- The interior cut points, prefixed by `0`, are weakly ascending. -/
theorem process_matches_interior_pairwise (mp : List (Nat × Nat)) (t : List Char)
    (hne : mp ≠ []) (hok : SpansOK t.length 0 mp) :
    (0 :: (((process_matches mp t).2.drop 1).dropLast)).Pairwise (· ≤ ·) := by
  obtain ⟨hpw, hhead, -, -, -⟩ := process_matches_spec mp t hne hok
  have hmeq : (process_matches mp t).2 = 0 :: ((process_matches mp t).2).tail :=
    head?_zero _ hhead
  have hsub : List.Sublist (0 :: (((process_matches mp t).2.drop 1).dropLast))
      (process_matches mp t).2 := by
    rw [List.drop_one]
    conv_rhs => rw [hmeq]
    exact List.Sublist.cons₂ 0 (List.dropLast_sublist _)
  exact (hpw.sublist hsub).imp le_of_lt

/-- The segment texts cut at the resolver's interior offsets tile the
original run text. -/
theorem process_matches_segs_join (mp : List (Nat × Nat)) (t : List Char)
    (hne : mp ≠ []) (hok : SpansOK t.length 0 mp) :
    (segTexts t 0 (((process_matches mp t).2.drop 1).dropLast)).flatten = t := by
  have := segTexts_join t (((process_matches mp t).2.drop 1).dropLast) 0
    (process_matches_interior_pairwise mp t hne hok)
  simpa using this

/-- `apply_highlight` on a formatting clone of `run`, expressed by the
segment text the clone carries. -/
theorem apply_highlight_clone (repl : Option (List Char)) (tc : RGBColor)
    (bc : WDColorIndex) (run : Run) (fl : Bool) (s : List Char) :
    apply_highlight repl tc bc fl { run with text := s } =
      (if fl then { run with
          text := match repl with | some rw => rw | none => s,
          highlightColor := some bc, color := some tc }
        else { run with text := s }) := by
  cases fl <;> rfl

/-- The per-run body under the resolver's invariants: in every branch the
result is the highlight-flag-guided mapping over the formatting clones of
`run` carrying the segment texts (the in-place whole-run branch coincides
with the `interior = []` instance of the split branch). -/
theorem redact_run_body_formula (repl : Option (List Char)) (tc : RGBColor)
    (bc : WDColorIndex) (run : Run) (h : List Bool) (m : List Nat)
    (hlen : h.length + 1 = m.length) (hm2 : 2 ≤ m.length)
    (htwo : m.length = 2 → h = [true] ∧ m = [0, run.text.length]) :
    redact_run_body repl tc bc run h m = Except.ok
      ((h.zip (segTexts run.text 0 ((m.drop 1).dropLast))).map
        (fun p => if p.1
          then { run with
              text := match repl with | some rw => rw | none => p.2,
              highlightColor := some bc, color := some tc }
          else { run with text := p.2 })) := by
  by_cases hc2 : m.length = 2
  · obtain ⟨hh, hm⟩ := htwo hc2
    subst hh
    subst hm
    simp [redact_run_body, segTexts, apply_highlight]
  · unfold redact_run_body
    rw [if_pos ⟨by omega, by omega⟩, if_neg (by omega), if_neg hc2]
    unfold split_run_by
    simp only [List.zip_map_right, List.map_map]
    refine congrArg Except.ok (List.map_congr_left ?_)
    rintro ⟨fl, s⟩ -
    exact apply_highlight_clone repl tc bc run fl s

/-- `redact_run` under valid non-degenerate spans: the run is replaced by
the formatting clones carrying the segment texts, with replacement and
colouring applied exactly on the highlighted ones. -/
theorem redact_run_formula (repl : Option (List Char)) (tc : RGBColor)
    (bc : WDColorIndex) (run : Run) (mp : List (Nat × Nat)) (hne : mp ≠ [])
    (hok : SpansOK run.text.length 0 mp) :
    redact_run repl tc bc run mp = Except.ok
      (((process_matches mp run.text).1.zip
          (segTexts run.text 0 (((process_matches mp run.text).2.drop 1).dropLast))).map
        (fun p => if p.1
          then { run with
              text := match repl with | some rw => rw | none => p.2,
              highlightColor := some bc, color := some tc }
          else { run with text := p.2 })) := by
  obtain ⟨hpw, hhead, hlast, hlen, -⟩ := process_matches_spec mp run.text hne hok
  have hm2 := process_matches_min_len mp run.text hne hok
  have htwo : (process_matches mp run.text).2.length = 2 →
      (process_matches mp run.text).1 = [true] ∧
      (process_matches mp run.text).2 = [0, run.text.length] := by
    intro h2
    have hm0 : (process_matches mp run.text).2 = [0, run.text.length] := by
      rcases hm : (process_matches mp run.text).2 with - | ⟨a, l⟩
      · rw [hm] at hhead; simp at hhead
      rcases l with - | ⟨b, l2⟩
      · rw [hm] at h2; simp at h2
      rcases l2 with - | ⟨c, l3⟩
      · rw [hm] at hhead hlast
        simp at hhead hlast
        rw [hhead, hlast]
      · rw [hm] at h2; simp at h2
    have hfull := process_matches_two mp run.text hm0
    exact ⟨by rw [hfull], hm0⟩
  show redact_run_body repl tc bc run
      (process_matches mp run.text).1 (process_matches mp run.text).2 = _
  exact redact_run_body_formula repl tc bc run _ _ hlen hm2 htwo

/-- With no replacement string, a processed run's visible text is
preserved: the texts of the replacing runs join back to the original. -/
theorem redact_run_none_join (tc : RGBColor) (bc : WDColorIndex) (run : Run)
    (mp : List (Nat × Nat)) (hok : SpansOK run.text.length 0 mp) :
    ∃ out, redact_run none tc bc run mp = Except.ok out ∧
      (out.map Run.text).flatten = run.text := by
  by_cases hne : mp = []
  · subst hne; exact ⟨[run], rfl, by simp⟩
  · refine ⟨_, redact_run_formula none tc bc run mp hne hok, ?_⟩
    obtain ⟨-, -, -, hlen, -⟩ := process_matches_spec mp run.text hne hok
    have hm2 := process_matches_min_len mp run.text hne hok
    rw [List.map_map]
    have hcong : ((process_matches mp run.text).1.zip
          (segTexts run.text 0
            (((process_matches mp run.text).2.drop 1).dropLast))).map
        (Run.text ∘ (fun p : Bool × List Char => if p.1
          then { run with
              text := match (none : Option (List Char)) with
                | some rw => rw | none => p.2,
              highlightColor := some bc, color := some tc }
          else { run with text := p.2 })) =
        ((process_matches mp run.text).1.zip
          (segTexts run.text 0
            (((process_matches mp run.text).2.drop 1).dropLast))).map Prod.snd := by
      refine List.map_congr_left ?_
      rintro ⟨fl, s⟩ -
      cases fl <;> rfl
    rw [hcong, List.map_snd_zip]
    · exact process_matches_segs_join mp run.text hne hok
    · rw [segTexts_length]
      simp only [List.length_dropLast, List.length_drop]
      omega

/-- Paragraph-level frame property with no replacement: every run of the
paragraph is replaced by runs whose texts join back to it, so the visible
concatenated paragraph text is unchanged. -/
theorem redact_paragraph_none_join (tc : RGBColor) (bc : WDColorIndex)
    (matcher : List Char → List (Nat × Nat)) (runs : List Run)
    (hoks : ∀ r ∈ runs, SpansOK r.text.length 0 (matcher r.text)) :
    ∃ out, redact_paragraph none tc bc matcher runs = Except.ok out ∧
      (out.map Run.text).flatten = (runs.map Run.text).flatten := by
  induction runs with
  | nil => exact ⟨[], rfl, rfl⟩
  | cons r rest ih =>
      obtain ⟨o1, ho1, hj1⟩ :=
        redact_run_none_join tc bc r (matcher r.text) (hoks r (by simp))
      obtain ⟨o2, ho2, hj2⟩ := ih (fun x hx => hoks x (by simp [hx]))
      refine ⟨o1 ++ o2, ?_, ?_⟩
      · simp only [redact_paragraph, ho1, ho2]
        rfl
      · simp only [List.map_append, List.flatten_append, hj1, hj2, List.map_cons,
          List.flatten_cons]

/-! ## The claims -/

/-- C1: the claim says that on an internal length mismatch
(`len(highlights) != len(matches) - 1`) the orchestrator halts with a raised
exception.  The code does not: line 108 of `src/redact.py` evaluates
`ValueError('Calculation error within matches and highlights')` as a bare
expression without `raise`, so the mismatch branch returns normally with the
run unchanged — a silent skip — and never produces an error. -/
theorem c1_mismatch_silently_skipped :
    redact_run_body none ⟨0, 0, 0⟩ WDColorIndex.black
        ⟨"abc".toList, none, none, 0⟩ [true] [0, 1, 2] =
      Except.ok [⟨"abc".toList, none, none, 0⟩] ∧
    ∀ msg : String,
      redact_run_body none ⟨0, 0, 0⟩ WDColorIndex.black
          ⟨"abc".toList, none, none, 0⟩ [true] [0, 1, 2] ≠ Except.error msg := by
  have heq : redact_run_body none ⟨0, 0, 0⟩ WDColorIndex.black
      ⟨"abc".toList, none, none, 0⟩ [true] [0, 1, 2] =
      Except.ok [⟨"abc".toList, none, none, 0⟩] := rfl
  exact ⟨heq, fun msg h => Except.noConfusion (heq ▸ h)⟩

/-- C2 (counterexample): the claim's precondition — ordered by start
ascending, non-overlapping, within `[0, textLength]` — does not exclude
empty spans.  For the single empty span `(2, 2)` on a text of length 5 the
resolver returns offsets `[0, 2, 2, 5]`, which are not strictly
increasing. -/
theorem c2_counterexample :
    SpansWeak 5 0 [(2, 2)] ∧
      (process_matches [(2, 2)] "abcde".toList).2 = [0, 2, 2, 5] ∧
      ¬ (process_matches [(2, 2)] "abcde".toList).2.Pairwise (· < ·) := by
  refine ⟨by decide, by decide, ?_⟩
  have heq : (process_matches [(2, 2)] "abcde".toList).2 = [0, 2, 2, 5] := by decide
  rw [heq]
  decide

/-- C2 (amended): for every non-empty list of match spans ordered by start
ascending, non-overlapping, each within `[0, textLength]` and non-empty
(`start < end`), the offsets list returned by the resolver is strictly
increasing, its first element is 0, its last element equals the text length,
and `len(highlights) = len(offsets) - 1`. -/
theorem c2_segment_plan_invariant (mp : List (Nat × Nat)) (t : List Char)
    (hne : mp ≠ []) (hok : SpansOK t.length 0 mp) :
    (process_matches mp t).2.Pairwise (· < ·) ∧
    (process_matches mp t).2.head? = some 0 ∧
    (process_matches mp t).2.getLast? = some t.length ∧
    (process_matches mp t).1.length + 1 = (process_matches mp t).2.length := by
  obtain ⟨c1, c2, c3, c4, -⟩ := process_matches_spec mp t hne hok
  exact ⟨c1, c2, c3, c4⟩

/-- Witness for C2 (amended) at the spans `[(5, 14)]` of Scenario 1. -/
theorem c2_witness :
    (([(5, 14)] : List (Nat × Nat)) ≠ [] ∧
      SpansOK "call 555-1234 now".toList.length 0 [(5, 14)]) ∧
    ((process_matches [(5, 14)] "call 555-1234 now".toList).2.Pairwise (· < ·) ∧
      (process_matches [(5, 14)] "call 555-1234 now".toList).2.head? = some 0 ∧
      (process_matches [(5, 14)] "call 555-1234 now".toList).2.getLast? =
        some "call 555-1234 now".toList.length ∧
      (process_matches [(5, 14)] "call 555-1234 now".toList).1.length + 1 =
        (process_matches [(5, 14)] "call 555-1234 now".toList).2.length) :=
  ⟨⟨by decide, by decide⟩,
    c2_segment_plan_invariant [(5, 14)] "call 555-1234 now".toList
      (by decide) (by decide)⟩

/-- C3 (counterexample): for the contiguous spans `[(0, 3), (3, 6)]` on
`"foobar"` the resolver does not return the two-element offsets list
`[0, 6]` the claim states. -/
theorem c3_counterexample :
    (process_matches [(0, 3), (3, 6)] "foobar".toList).2 ≠ [0, 6] := by decide

/-- C3 (amended): for the contiguous spans `[(0, 3), (3, 6)]` on `"foobar"`
the resolver returns offsets `[0, 3, 6]` with highlights `[true, true]`:
all of `[0, 6)` is highlighted, but as two contiguous highlighted segments
— contiguous matches are not merged into a single segment. -/
theorem c3_contiguous_not_merged :
    process_matches [(0, 3), (3, 6)] "foobar".toList =
      ([true, true], [0, 3, 6]) := by decide

/-- C4 (counterexample): in `"call 555-1234 now"` the literal `555-1234`
occupies indices 5 to 12, so the span the matcher produces is `(5, 13)`,
not `(5, 14)`; on that span the resolver returns offsets `[0, 5, 13, 17]`,
not the `[0, 5, 14, 17]` of the claim. -/
theorem c4_counterexample :
    litMatchSpan "555-1234".toList "call 555-1234 now".toList 0 = some (5, 13) ∧
    (process_matches [(5, 13)] "call 555-1234 now".toList).2 ≠ [0, 5, 14, 17] := by
  decide

/-- C4 (amended): for run text `"call 555-1234 now"` (length 17) with the
single match span `(5, 13)` produced by pattern `555-1234`, the resolver
returns offsets `[0, 5, 13, 17]` and highlights `[false, true, false]`. -/
theorem c4_scenario_phone :
    litMatchSpan "555-1234".toList "call 555-1234 now".toList 0 = some (5, 13) ∧
    process_matches [(5, 13)] "call 555-1234 now".toList =
      ([false, true, false], [0, 5, 13, 17]) := by decide

/-- C5: for every run in which `N ≥ 1` non-overlapping ascending match spans
with `start < end` are found, the resolver returns exactly `N` segments
flagged highlighted and an offsets list of length `len(highlights) + 1`. -/
theorem c5_coverage_invariant (mp : List (Nat × Nat)) (t : List Char)
    (hne : mp ≠ []) (hok : SpansOK t.length 0 mp) :
    (process_matches mp t).1.count true = mp.length ∧
    (process_matches mp t).2.length = (process_matches mp t).1.length + 1 := by
  obtain ⟨-, -, -, c4, c5⟩ := process_matches_spec mp t hne hok
  exact ⟨c5, c4.symm⟩

/-- Witness for C5 at two spans on `"foobar"`. -/
theorem c5_witness :
    (([(0, 2), (4, 6)] : List (Nat × Nat)) ≠ [] ∧
      SpansOK "foobar".toList.length 0 [(0, 2), (4, 6)]) ∧
    ((process_matches [(0, 2), (4, 6)] "foobar".toList).1.count true = 2 ∧
      (process_matches [(0, 2), (4, 6)] "foobar".toList).2.length =
        (process_matches [(0, 2), (4, 6)] "foobar".toList).1.length + 1) :=
  ⟨⟨by decide, by decide⟩,
    c5_coverage_invariant [(0, 2), (4, 6)] "foobar".toList (by decide) (by decide)⟩

/-- C9: the colour lookup maps `'white'` and `'yellow'` to their documented
pairs and everything else — including an absent colour — to black text on
black highlight, raising no error. -/
theorem c9_redact_colors (c : Option String)
    (hw : c ≠ some "white") (hy : c ≠ some "yellow") :
    redact_colors (some "white") = (⟨255, 255, 255⟩, WDColorIndex.white) ∧
    redact_colors (some "yellow") = (⟨255, 255, 0⟩, WDColorIndex.yellow) ∧
    redact_colors c = (⟨0, 0, 0⟩, WDColorIndex.black) := by
  refine ⟨rfl, rfl, ?_⟩
  unfold redact_colors
  split
  · exact absurd rfl hw
  · exact absurd rfl hy
  · rfl

/-- Witness for C9 at the unrecognized colour `'purple'` and at `None`. -/
theorem c9_witness :
    redact_colors (some "purple") = (⟨0, 0, 0⟩, WDColorIndex.black) ∧
    redact_colors none = (⟨0, 0, 0⟩, WDColorIndex.black) :=
  ⟨(c9_redact_colors (some "purple") (by decide) (by decide)).2.2,
    (c9_redact_colors none (by decide) (by decide)).2.2⟩

/-- C10: `process_matches` depends on its `run_text` argument only through
the length: equal match pairs and equal-length texts give identical
results.  (Determinism and the absence of mutation of `match_pairs` hold by
the purity of the embedded function, which reflects that the source only
reads `match_pairs` and `run_text`.) -/
theorem c10_length_only (mp : List (Nat × Nat)) (t1 t2 : List Char)
    (hlen : t1.length = t2.length) :
    process_matches mp t1 = process_matches mp t2 := by
  cases mp with
  | nil => rfl
  | cons p rest =>
      obtain ⟨s, e⟩ := p
      rw [process_matches_cons, process_matches_cons, hlen]

/-- Witness for C10 at two different texts of equal length. -/
theorem c10_witness :
    ("ab".toList.length = "cd".toList.length) ∧
    process_matches [(0, 1)] "ab".toList = process_matches [(0, 1)] "cd".toList :=
  ⟨by decide, c10_length_only [(0, 1)] "ab".toList "cd".toList (by decide)⟩

/-- C6: whenever the resolver returns the two-element offsets list
`[0, textLength]` (a match covering the entire run), the orchestrator
mutates the run in place without invoking the run splitter: the run's text
becomes the replacement string when one was provided (otherwise it is
kept), and the highlight background colour and the matching text colour are
applied to that single run. -/
theorem c6_whole_run_in_place (repl : Option (List Char)) (tc : RGBColor)
    (bc : WDColorIndex) (run : Run) (mp : List (Nat × Nat))
    (hfull : (process_matches mp run.text).2 = [0, run.text.length]) :
    redact_run repl tc bc run mp =
      Except.ok [{ run with
        text := match repl with | some rw => rw | none => run.text,
        highlightColor := some bc,
        color := some tc }] := by
  have h2 := process_matches_two mp run.text hfull
  show redact_run_body repl tc bc run
      (process_matches mp run.text).1 (process_matches mp run.text).2 = _
  rw [h2]
  cases repl <;> simp [redact_run_body, apply_highlight]

/-- Witness for C6 at Scenario 3: a whole-run match on
`"SSN: 123-45-6789"` with replacement `"[X]"` and colour white. -/
theorem c6_witness :
    (process_matches [(0, 16)] "SSN: 123-45-6789".toList).2 =
      [0, "SSN: 123-45-6789".toList.length] ∧
    redact_run (some "[X]".toList) ⟨255, 255, 255⟩ WDColorIndex.white
        ⟨"SSN: 123-45-6789".toList, none, none, 3⟩ [(0, 16)] =
      Except.ok
        [⟨"[X]".toList, some ⟨255, 255, 255⟩, some WDColorIndex.white, 3⟩] :=
  ⟨by decide,
    c6_whole_run_in_place (some "[X]".toList) ⟨255, 255, 255⟩ WDColorIndex.white
      ⟨"SSN: 123-45-6789".toList, none, none, 3⟩ [(0, 16)] (by decide)⟩

/-- C7: frame effect of the run and paragraph processing: a run with zero
matches is left completely untouched; with matches, the run is replaced by
formatting clones of itself carrying the segment texts cut at the
resolver's offsets, where only segments whose highlight flag is true
receive replacement text and colouring and every false-flagged run keeps
its original text slice and all formatting; the slices tile the original
text, so with no replacement string the paragraph's visible concatenated
text is unchanged. -/
theorem c7_frame_effect (repl : Option (List Char)) (tc : RGBColor)
    (bc : WDColorIndex) (run : Run) (mp : List (Nat × Nat))
    (matcher : List Char → List (Nat × Nat)) (runs : List Run)
    (hok : SpansOK run.text.length 0 mp)
    (hoks : ∀ r ∈ runs, SpansOK r.text.length 0 (matcher r.text)) :
    (mp = [] → redact_run repl tc bc run mp = Except.ok [run]) ∧
    (mp ≠ [] →
      redact_run repl tc bc run mp = Except.ok
        (((process_matches mp run.text).1.zip
            (segTexts run.text 0
              (((process_matches mp run.text).2.drop 1).dropLast))).map
          (fun p => if p.1
            then { run with
                text := match repl with | some rw => rw | none => p.2,
                highlightColor := some bc, color := some tc }
            else { run with text := p.2 })) ∧
      (segTexts run.text 0
          (((process_matches mp run.text).2.drop 1).dropLast)).flatten =
        run.text) ∧
    (repl = none →
      ∃ out, redact_paragraph repl tc bc matcher runs = Except.ok out ∧
        (out.map Run.text).flatten = (runs.map Run.text).flatten) := by
  refine ⟨?_, ?_, ?_⟩
  · rintro rfl
    rfl
  · intro hne
    exact ⟨redact_run_formula repl tc bc run mp hne hok,
      process_matches_segs_join mp run.text hne hok⟩
  · rintro rfl
    exact redact_paragraph_none_join tc bc matcher runs hoks

/-- Witness for C7 at Scenario 1 with no replacement: the run is split into
three runs, only the middle one recoloured, texts joining back to the
original. -/
theorem c7_witness :
    redact_run none ⟨0, 0, 0⟩ WDColorIndex.black
        ⟨"call 555-1234 now".toList, none, none, 5⟩ [(5, 13)] =
      Except.ok
        [⟨"call ".toList, none, none, 5⟩,
         ⟨"555-1234".toList, some ⟨0, 0, 0⟩, some WDColorIndex.black, 5⟩,
         ⟨" now".toList, none, none, 5⟩] := by
  have happ := c7_frame_effect none ⟨0, 0, 0⟩ WDColorIndex.black
      ⟨"call 555-1234 now".toList, none, none, 5⟩ [(5, 13)]
      (fun _ => [(5, 13)]) [⟨"call 555-1234 now".toList, none, none, 5⟩]
      (by decide) (by decide)
  have h1 := (happ.2.1 (by decide)).1
  rw [h1]
  rfl

/-- C8: replacement is applied to a matched (highlighted) segment iff
`replace_with` is not `None`: with it omitted, the matched text is kept and
only the colouring is applied; with it present — including the empty
string, covered by the quantifier — the matched segment's text is set to
it; a non-highlighted segment is never touched. -/
theorem c8_replacement_iff_present (tc : RGBColor) (bc : WDColorIndex) (run : Run) :
    ((apply_highlight none tc bc true run).text = run.text ∧
      (apply_highlight none tc bc true run).color = some tc ∧
      (apply_highlight none tc bc true run).highlightColor = some bc) ∧
    (∀ rw : List Char, (apply_highlight (some rw) tc bc true run).text = rw) ∧
    (∀ repl : Option (List Char), apply_highlight repl tc bc false run = run) :=
  ⟨⟨rfl, rfl, rfl⟩, fun _ => rfl, fun _ => rfl⟩

end Redact
